import Mathlib

/-!
Verification development for the route-history screen of the
bythron_client_mob_app repository.

The definitions below are a shallow embedding, over the real numbers (for
the geodesy and interpolation helpers) and over the rationals (for the
playback engine state machine), of the module-level helper functions and of
the playback logic of src/app/(root)/(tabs)/history.tsx.  JavaScript number
arithmetic is idealised as exact real arithmetic; the JavaScript remainder
operator, Math.floor, Math.trunc and Math.atan2 are modelled explicitly.
-/

namespace History

/-- Model of JavaScript Math.trunc / the implicit truncation used by the
remainder operator: rounding toward zero. -/
noncomputable def jsTrunc (x : ℝ) : ℤ :=
  if 0 ≤ x then ⌊x⌋ else ⌈x⌉

/-- Model of the JavaScript remainder operator x % y (sign follows the
dividend; for the divisors used here, y > 0). -/
noncomputable def jsMod (x y : ℝ) : ℝ :=
  x - y * (jsTrunc (x / y) : ℝ)

/-- Model of JavaScript Math.atan2 (with Math.atan2 0 0 = 0, as for the
positive zero of IEEE 754). -/
noncomputable def jsAtan2 (y x : ℝ) : ℝ :=
  if 0 < x then Real.arctan (y / x)
  else if x < 0 then
    (if 0 ≤ y then Real.arctan (y / x) + Real.pi else Real.arctan (y / x) - Real.pi)
  else
    (if 0 < y then Real.pi / 2 else if y < 0 then -(Real.pi / 2) else 0)

/-- A geographic point as the code stores it: a [longitude, latitude] pair
in degrees. -/
abbrev GeoPoint := ℝ × ℝ

/-- Embedding of toRad from history.tsx: degrees to radians. -/
noncomputable def toRad (value : ℝ) : ℝ := value * Real.pi / 180

/-- Embedding of haversineMeters from history.tsx: great-circle distance on
a sphere of radius 6371000 m via the haversine formula. -/
noncomputable def haversineMeters (a b : GeoPoint) : ℝ :=
  let R : ℝ := 6371000
  let dLat := toRad (b.2 - a.2)
  let dLon := toRad (b.1 - a.1)
  let lat1 := toRad a.2
  let lat2 := toRad b.2
  let sinDLat := Real.sin (dLat / 2)
  let sinDLon := Real.sin (dLon / 2)
  let h := sinDLat * sinDLat + Real.cos lat1 * Real.cos lat2 * (sinDLon * sinDLon)
  2 * R * Real.arcsin (min 1 (Real.sqrt h))

/-- Embedding of bearingDegrees from history.tsx: initial great-circle
bearing from the first point to the second, in [0, 360) degrees. -/
noncomputable def bearingDegrees (p q : GeoPoint) : ℝ :=
  let fromLat := toRad p.2
  let toLat := toRad q.2
  let dLon := toRad (q.1 - p.1)
  let y := Real.sin dLon * Real.cos toLat
  let x := Real.cos fromLat * Real.sin toLat -
    Real.sin fromLat * Real.cos toLat * Real.cos dLon
  let brng := jsAtan2 y x * 180 / Real.pi
  jsMod (brng + 360) 360

/-- Embedding of normalizeBearing from history.tsx. -/
noncomputable def normalizeBearing (value : ℝ) : ℝ :=
  jsMod (jsMod value 360 + 360) 360

/-- Embedding of interpolateBearing from history.tsx; the two sequential
if statements mutating delta are modelled by nested lets. -/
noncomputable def interpolateBearing (f g t : ℝ) : ℝ :=
  let start := normalizeBearing f
  let e := normalizeBearing g
  let delta0 := e - start
  let delta1 := if delta0 > 180 then delta0 - 360 else delta0
  let delta2 := if delta1 < -180 then delta1 + 360 else delta1
  normalizeBearing (start + delta2 * t)

theorem haversineMeters_self (p : GeoPoint) : haversineMeters p p = 0 := by
  simp [haversineMeters, toRad]

theorem haversineMeters_comm (a b : GeoPoint) :
    haversineMeters a b = haversineMeters b a := by
  unfold haversineMeters toRad
  have hLat : Real.sin ((a.2 - b.2) * Real.pi / 180 / 2) *
      Real.sin ((a.2 - b.2) * Real.pi / 180 / 2) =
      Real.sin ((b.2 - a.2) * Real.pi / 180 / 2) *
      Real.sin ((b.2 - a.2) * Real.pi / 180 / 2) := by
    have : (a.2 - b.2) * Real.pi / 180 / 2 = -((b.2 - a.2) * Real.pi / 180 / 2) := by
      ring
    rw [this, Real.sin_neg]
    ring
  have hLon : Real.sin ((a.1 - b.1) * Real.pi / 180 / 2) *
      Real.sin ((a.1 - b.1) * Real.pi / 180 / 2) =
      Real.sin ((b.1 - a.1) * Real.pi / 180 / 2) *
      Real.sin ((b.1 - a.1) * Real.pi / 180 / 2) := by
    have : (a.1 - b.1) * Real.pi / 180 / 2 = -((b.1 - a.1) * Real.pi / 180 / 2) := by
      ring
    rw [this, Real.sin_neg]
    ring
  simp only
  rw [hLat, hLon]
  ring_nf

/-- C9: haversineMeters is zero on equal points and symmetric in its
arguments. -/
theorem haversine_identity_and_symmetric :
    (∀ p : GeoPoint, haversineMeters p p = 0) ∧
    (∀ a b : GeoPoint, haversineMeters a b = haversineMeters b a) :=
  ⟨haversineMeters_self, haversineMeters_comm⟩

theorem jsMod_of_nonneg {x y : ℝ} (hx : 0 ≤ x) (hy : 0 < y) :
    jsMod x y = y * Int.fract (x / y) := by
  have hq : 0 ≤ x / y := div_nonneg hx hy.le
  have hy0 : y ≠ 0 := ne_of_gt hy
  unfold jsMod jsTrunc
  rw [if_pos hq, Int.fract, mul_sub]
  rw [show y * (x / y) = x by field_simp]

theorem jsMod_nonneg {x y : ℝ} (hx : 0 ≤ x) (hy : 0 < y) : 0 ≤ jsMod x y := by
  rw [jsMod_of_nonneg hx hy]
  exact mul_nonneg hy.le (Int.fract_nonneg _)

theorem jsMod_lt {x y : ℝ} (hx : 0 ≤ x) (hy : 0 < y) : jsMod x y < y := by
  rw [jsMod_of_nonneg hx hy]
  calc y * Int.fract (x / y) < y * 1 := by
        exact mul_lt_mul_of_pos_left (Int.fract_lt_one _) hy
    _ = y := mul_one y

theorem jsMod_gt_neg {x y : ℝ} (hy : 0 < y) : -y < jsMod x y := by
  rcases le_or_lt 0 x with hx | hx
  · have := jsMod_nonneg hx hy
    linarith
  · have hq : ¬ (0 ≤ x / y) := by
      rw [not_le]
      exact div_neg_of_neg_of_pos hx hy
    unfold jsMod jsTrunc
    rw [if_neg hq]
    have h1 : (⌈x / y⌉ : ℝ) < x / y + 1 := Int.ceil_lt_add_one _
    have h2 : x - y * (⌈x / y⌉ : ℝ) > x - y * (x / y + 1) := by
      have := mul_lt_mul_of_pos_left h1 hy
      linarith
    have h3 : x - y * (x / y + 1) = -y := by
      field_simp
    linarith

theorem jsMod_lt_any {x y : ℝ} (hy : 0 < y) : jsMod x y < y := by
  rcases le_or_lt 0 x with hx | hx
  · exact jsMod_lt hx hy
  · have hq : ¬ (0 ≤ x / y) := by
      rw [not_le]
      exact div_neg_of_neg_of_pos hx hy
    unfold jsMod jsTrunc
    rw [if_neg hq]
    have h1 : x / y ≤ (⌈x / y⌉ : ℝ) := Int.le_ceil _
    have h2 : y * (x / y) ≤ y * (⌈x / y⌉ : ℝ) := mul_le_mul_of_nonneg_left h1 hy.le
    have h3 : y * (x / y) = x := by field_simp
    linarith

theorem jsMod_eq_self {x y : ℝ} (hx : 0 ≤ x) (hxy : x < y) : jsMod x y = x := by
  have hy : 0 < y := lt_of_le_of_lt hx hxy
  have hq1 : x / y < 1 := (div_lt_one hy).2 hxy
  have hq0 : 0 ≤ x / y := div_nonneg hx hy.le
  have hfl : ⌊x / y⌋ = 0 := Int.floor_eq_zero_iff.2 ⟨hq0, hq1⟩
  unfold jsMod jsTrunc
  rw [if_pos hq0, hfl]
  simp

theorem jsMod_eq_sub {x y : ℝ} (hge : y ≤ x) (hlt : x < 2 * y) (hy : 0 < y) :
    jsMod x y = x - y := by
  have hq1 : 1 ≤ x / y := (le_div_iff₀ hy).2 (by linarith)
  have hq2 : x / y < 2 := (div_lt_iff₀ hy).2 (by linarith)
  have hfl : ⌊x / y⌋ = 1 := by
    rw [Int.floor_eq_iff]
    constructor
    · exact_mod_cast hq1
    · push_cast
      linarith
  have hq0 : 0 ≤ x / y := le_trans (by norm_num) hq1
  unfold jsMod jsTrunc
  rw [if_pos hq0, hfl]
  push_cast
  ring

theorem normalizeBearing_mem (v : ℝ) :
    0 ≤ normalizeBearing v ∧ normalizeBearing v < 360 := by
  unfold normalizeBearing
  have h360 : (0:ℝ) < 360 := by norm_num
  have hlow : -(360:ℝ) < jsMod v 360 := jsMod_gt_neg h360
  have hin : 0 ≤ jsMod v 360 + 360 := by linarith
  exact ⟨jsMod_nonneg hin h360, jsMod_lt hin h360⟩

theorem normalizeBearing_350 : normalizeBearing 350 = 350 := by
  unfold normalizeBearing
  rw [jsMod_eq_self (by norm_num : (0:ℝ) ≤ 350) (by norm_num : (350:ℝ) < 360)]
  rw [jsMod_eq_sub (by norm_num : (360:ℝ) ≤ 350 + 360) (by norm_num) (by norm_num)]
  norm_num

theorem normalizeBearing_10 : normalizeBearing 10 = 10 := by
  unfold normalizeBearing
  rw [jsMod_eq_self (by norm_num : (0:ℝ) ≤ 10) (by norm_num : (10:ℝ) < 360)]
  rw [jsMod_eq_sub (by norm_num : (360:ℝ) ≤ 10 + 360) (by norm_num) (by norm_num)]
  norm_num

theorem normalizeBearing_360 : normalizeBearing 360 = 0 := by
  unfold normalizeBearing
  rw [jsMod_eq_sub (le_refl (360:ℝ)) (by norm_num) (by norm_num)]
  rw [show (360:ℝ) - 360 + 360 = 360 by ring]
  rw [jsMod_eq_sub (le_refl (360:ℝ)) (by norm_num) (by norm_num)]
  ring

/-- C6: interpolateBearing always lands in [0, 360), and interpolating
halfway from 350 degrees to 10 degrees crosses the 0/360 seam, giving
exactly 0 in the real-number model. -/
theorem interpolateBearing_range_and_seam :
    (∀ f g t : ℝ, 0 ≤ interpolateBearing f g t ∧ interpolateBearing f g t < 360) ∧
    interpolateBearing 350 10 (1/2) = 0 := by
  constructor
  · intro f g t
    unfold interpolateBearing
    exact normalizeBearing_mem _
  · unfold interpolateBearing
    rw [normalizeBearing_350, normalizeBearing_10]
    norm_num
    exact normalizeBearing_360

/-- Points contributed by one consecutive pair of the interpolateLine loop
in history.tsx: the pair's start point, followed (when the pair's haversine
distance exceeds stepMeters) by the synthetic points pushed for
s = 1, ..., steps - 1 with steps = Math.floor(dist / stepMeters). -/
noncomputable def segPoints (step : ℝ) (a b : GeoPoint) : List GeoPoint :=
  let dist := haversineMeters a b
  if dist ≤ step then [a]
  else
    let steps : ℕ := (⌊dist / step⌋).toNat
    a :: ((List.range' 1 (steps - 1)).map fun s =>
      (a.1 + (b.1 - a.1) * ((s : ℝ) / (steps : ℝ)),
       a.2 + (b.2 - a.2) * ((s : ℝ) / (steps : ℝ))))

/-- Embedding of interpolateLine from history.tsx.  The imperative loop
pushes, for each consecutive pair, the start point plus the synthetic
points (segPoints), and finally pushes the last input point; inputs of
length at most one are returned unchanged.  The recursion below produces
exactly that concatenation. -/
noncomputable def interpolateLine : List GeoPoint → ℝ → List GeoPoint
  | [], _ => []
  | [a], _ => [a]
  | a :: b :: rest, step => segPoints step a b ++ interpolateLine (b :: rest) step

theorem segPoints_eq_cons (step : ℝ) (a b : GeoPoint) :
    ∃ tl, segPoints step a b = a :: tl := by
  unfold segPoints
  by_cases h : haversineMeters a b ≤ step
  · exact ⟨[], by simp [h]⟩
  · exact ⟨(List.range' 1 ((⌊haversineMeters a b / step⌋).toNat - 1)).map fun s =>
      (a.1 + (b.1 - a.1) * ((s : ℝ) / ((⌊haversineMeters a b / step⌋).toNat : ℝ)),
       a.2 + (b.2 - a.2) * ((s : ℝ) / ((⌊haversineMeters a b / step⌋).toNat : ℝ))),
      by simp [h]⟩

theorem interpolateLine_ne_nil (coords : List GeoPoint) (step : ℝ)
    (h : coords ≠ []) : interpolateLine coords step ≠ [] := by
  match coords with
  | [a] => simp [interpolateLine]
  | a :: b :: rest =>
    obtain ⟨tl, htl⟩ := segPoints_eq_cons step a b
    simp [interpolateLine, htl]

/-- C8: interpolateLine preserves the first and the last input point
exactly, for every input polyline and step. -/
theorem interpolateLine_preserves_endpoints (coords : List GeoPoint) (step : ℝ) :
    (interpolateLine coords step).head? = coords.head? ∧
    (interpolateLine coords step).getLast? = coords.getLast? := by
  induction coords with
  | nil => simp [interpolateLine]
  | cons a tail ih =>
    match tail with
    | [] => simp [interpolateLine]
    | b :: rest =>
      obtain ⟨tl, htl⟩ := segPoints_eq_cons step a b
      constructor
      · simp [interpolateLine, htl]
      · have hne : interpolateLine (b :: rest) step ≠ [] :=
          interpolateLine_ne_nil _ _ (by simp)
        rw [show interpolateLine (a :: b :: rest) step =
            segPoints step a b ++ interpolateLine (b :: rest) step from rfl]
        rw [List.getLast?_append_of_ne_nil _ hne, ih.2]
        rw [List.getLast?_cons_cons]

/-- C10: the densified output contains the whole input, in order (the
input is a sublist of the output), and inputs of length at most one are
returned unchanged. -/
theorem interpolateLine_contains_input (coords : List GeoPoint) (step : ℝ)
    (hstep : 0 < step) :
    coords.Sublist (interpolateLine coords step) ∧
    (coords.length ≤ 1 → interpolateLine coords step = coords) := by
  constructor
  · induction coords with
    | nil => simp [interpolateLine]
    | cons a tail ih =>
      match tail with
      | [] => simp [interpolateLine]
      | b :: rest =>
        obtain ⟨tl, htl⟩ := segPoints_eq_cons step a b
        rw [show interpolateLine (a :: b :: rest) step =
            segPoints step a b ++ interpolateLine (b :: rest) step from rfl, htl]
        rw [List.cons_append]
        exact List.Sublist.cons₂ a (ih.trans (List.sublist_append_right tl _))
  · intro hlen
    match coords with
    | [] => rfl
    | [a] => rfl

/-- Closed witness for C10 at a concrete input. -/
theorem interpolateLine_contains_input_witness :
    (0:ℝ) < 1 ∧
    ([((0:ℝ), (0:ℝ))].Sublist (interpolateLine [((0:ℝ), (0:ℝ))] 1) ∧
      ([((0:ℝ), (0:ℝ))].length ≤ 1 →
        interpolateLine [((0:ℝ), (0:ℝ))] 1 = [((0:ℝ), (0:ℝ))])) :=
  ⟨by norm_num, interpolateLine_contains_input [((0:ℝ), (0:ℝ))] 1 (by norm_num)⟩

theorem haversine_north_one_degree :
    haversineMeters ((0:ℝ), (0:ℝ)) ((0:ℝ), (1:ℝ)) = 6371000 * Real.pi / 180 := by
  unfold haversineMeters toRad
  simp only
  norm_num
  have harg : Real.pi / 180 / 2 = Real.pi / 360 := by ring
  rw [harg]
  have hnn : 0 ≤ Real.sin (Real.pi / 360) := by
    apply Real.sin_nonneg_of_nonneg_of_le_pi
    · positivity
    · nlinarith [Real.pi_pos]
  rw [Real.sqrt_mul_self hnn]
  have hmin : min 1 (Real.sin (Real.pi / 360)) = Real.sin (Real.pi / 360) :=
    min_eq_right (Real.sin_le_one _)
  rw [hmin]
  rw [Real.arcsin_sin (by nlinarith [Real.pi_pos]) (by nlinarith [Real.pi_pos])]
  ring

/-- C1 evaluation at the failing input: for the polyline from (0, 0) to
(0, 1) (one degree due north, haversine distance 6371000 * pi / 180
meters) and stepMeters = 6371000 * pi / 270, the code computes
steps = floor(3/2) = 1 and inserts no synthetic point, so the output is
the unchanged two-point input whose single consecutive gap is
3/2 * stepMeters, strictly greater than stepMeters.  This contradicts the
claimed guarantee that every consecutive gap is at most stepMeters. -/
theorem interpolateLine_gap_exceeds_step :
    interpolateLine [((0:ℝ), (0:ℝ)), ((0:ℝ), (1:ℝ))] (6371000 * Real.pi / 270) =
      [((0:ℝ), (0:ℝ)), ((0:ℝ), (1:ℝ))] ∧
    haversineMeters ((0:ℝ), (0:ℝ)) ((0:ℝ), (1:ℝ)) =
      (3 / 2) * (6371000 * Real.pi / 270) ∧
    6371000 * Real.pi / 270 <
      haversineMeters ((0:ℝ), (0:ℝ)) ((0:ℝ), (1:ℝ)) := by
  have hpi := Real.pi_pos
  have hval : haversineMeters ((0:ℝ), (0:ℝ)) ((0:ℝ), (1:ℝ)) =
      (3 / 2) * (6371000 * Real.pi / 270) := by
    rw [haversine_north_one_degree]
    ring
  have hgt : 6371000 * Real.pi / 270 <
      haversineMeters ((0:ℝ), (0:ℝ)) ((0:ℝ), (1:ℝ)) := by
    rw [hval]
    nlinarith
  refine ⟨?_, hval, hgt⟩
  have hseg : segPoints (6371000 * Real.pi / 270) ((0:ℝ), (0:ℝ)) ((0:ℝ), (1:ℝ)) =
      [((0:ℝ), (0:ℝ))] := by
    unfold segPoints
    rw [if_neg (not_le.2 hgt)]
    have hratq : haversineMeters ((0:ℝ), (0:ℝ)) ((0:ℝ), (1:ℝ)) /
        (6371000 * Real.pi / 270) = 3 / 2 := by
      rw [hval]
      field_simp
      ring
    rw [hratq]
    have hfl : ⌊(3 / 2 : ℝ)⌋ = 1 := by
      rw [Int.floor_eq_iff]
      constructor <;> norm_num
    rw [hfl]
    simp
  show segPoints _ _ _ ++ interpolateLine [((0:ℝ), (1:ℝ))] _ = _
  rw [hseg]
  rfl

/-- Embedding of the distance accumulation loop of routeSummary in
history.tsx: for i from 0 to length - 2, add
haversineMeters(points[i], points[i+1]) / 1000 to distanceKm. -/
noncomputable def routeDistanceKm (ps : List GeoPoint) : ℝ :=
  ((ps.zip ps.tail).map fun ab => haversineMeters ab.1 ab.2 / 1000).sum

/-- Sum of the haversine distances over all consecutive pairs of a track,
as the specification words it. -/
noncomputable def sumConsecutiveHaversine : List GeoPoint → ℝ
  | a :: b :: rest => haversineMeters a b + sumConsecutiveHaversine (b :: rest)
  | _ => 0

theorem routeDistanceKm_eq_sum (ps : List GeoPoint) :
    1000 * routeDistanceKm ps = sumConsecutiveHaversine ps := by
  induction ps with
  | nil => simp [routeDistanceKm, sumConsecutiveHaversine]
  | cons a tail ih =>
    match tail with
    | [] => simp [routeDistanceKm, sumConsecutiveHaversine]
    | b :: rest =>
      have hstep : routeDistanceKm (a :: b :: rest) =
          haversineMeters a b / 1000 + routeDistanceKm (b :: rest) := by
        simp [routeDistanceKm]
      rw [hstep, mul_add, ih]
      rw [show sumConsecutiveHaversine (a :: b :: rest) =
        haversineMeters a b + sumConsecutiveHaversine (b :: rest) from rfl]
      ring

/-- C7: the route summary total distance (1000 times the accumulated
distanceKm) equals the sum of pairwise haversine distances over the whole
track, and in particular for a 3-point track it is
haversineMeters a b + haversineMeters b c. -/
theorem routeSummary_distance_additive :
    (∀ ps : List GeoPoint, 1000 * routeDistanceKm ps = sumConsecutiveHaversine ps) ∧
    (∀ a b c : GeoPoint, 1000 * routeDistanceKm [a, b, c] =
      haversineMeters a b + haversineMeters b c) := by
  refine ⟨routeDistanceKm_eq_sum, fun a b c => ?_⟩
  rw [routeDistanceKm_eq_sum]
  show haversineMeters a b + (haversineMeters b c + 0) = _
  ring

/-- A playback point as stored in playbackPoints: a coordinate plus the
optional course and the speed carried in the feature properties
(toNumberOrNull yields null for a missing or non-finite course, modelled
as none). -/
structure TrackPoint where
  coord : GeoPoint
  course : Option ℝ
  speed : ℝ

/-- Default used for out-of-range list reads; never reached for the
in-range indices computed by animatedCourse. -/
noncomputable def defaultTrackPoint : TrackPoint := ⟨((0:ℝ), (0:ℝ)), none, 0⟩

/-- Embedding of the course selection expression of animatedPoint in
history.tsx: startCourse != null && endCourse != null
? interpolateBearing(startCourse, endCourse, t)
: startCourse ?? endCourse ?? fallbackCourse. -/
noncomputable def courseSelect (cs ce : Option ℝ) (t fb : ℝ) : ℝ :=
  match cs, ce with
  | some a, some b => interpolateBearing a b t
  | _, _ => (cs.or ce).getD fb

/-- Embedding of the course computed by the animatedPoint memo of
history.tsx for a non-negative playhead value: index and nextIndex are the
clamped bracketing indices, t the clamped fractional part, and the course
is selected by courseSelect with the geometric bearing as fallback.
Returns none exactly when the track is empty (animatedPoint is null). -/
noncomputable def animatedCourse (ps : List TrackPoint) (pos : ℝ) : Option ℝ :=
  if ps.length = 0 then none
  else
    let index := min (⌊pos⌋.toNat) (ps.length - 1)
    let nextIndex := min (index + 1) (ps.length - 1)
    let start := (ps.getD index defaultTrackPoint).coord
    let stop := (ps.getD nextIndex defaultTrackPoint).coord
    let t := max 0 (min (pos - (index : ℝ)) 1)
    let startCourse := (ps.getD index defaultTrackPoint).course
    let endCourse := (ps.getD nextIndex defaultTrackPoint).course
    some (courseSelect startCourse endCourse t (bearingDegrees start stop))

theorem bearingDegrees_north : bearingDegrees ((0:ℝ), (0:ℝ)) ((0:ℝ), (1:ℝ)) = 0 := by
  unfold bearingDegrees toRad jsAtan2
  simp only
  norm_num
  have hsin : 0 < Real.sin (Real.pi / 180) := by
    apply Real.sin_pos_of_pos_of_lt_pi
    · positivity
    · nlinarith [Real.pi_pos]
  rw [if_pos hsin]
  norm_num
  rw [jsMod_eq_sub (le_refl (360:ℝ)) (by norm_num) (by norm_num)]
  ring

theorem bearingDegrees_self (p : GeoPoint) : bearingDegrees p p = 0 := by
  unfold bearingDegrees toRad jsAtan2
  simp only
  norm_num
  rw [mul_comm (Real.sin (p.2 * Real.pi / 180)) (Real.cos (p.2 * Real.pi / 180))]
  simp
  rw [jsMod_eq_sub (le_refl (360:ℝ)) (by norm_num) (by norm_num)]
  ring

/-- C4 counterexample: in a two-point track whose first point has no
course and whose second point has course 90, the sample course at
position 0 is 90 (the single known course), not the geometric fallback
bearingDegrees of the bracketing coordinates, which is 0 for a due-north
segment.  This refutes the claim that any missing course triggers the
geometric fallback. -/
theorem animatedCourse_not_geometric_fallback :
    animatedCourse
      [⟨((0:ℝ), (0:ℝ)), none, 0⟩, ⟨((0:ℝ), (1:ℝ)), some 90, 0⟩] 0 = some 90 ∧
    bearingDegrees ((0:ℝ), (0:ℝ)) ((0:ℝ), (1:ℝ)) = 0 ∧
    (90:ℝ) ≠ 0 := by
  refine ⟨?_, bearingDegrees_north, by norm_num⟩
  unfold animatedCourse
  norm_num
  rfl

/-- C4 amended: when both bracketing courses are known the sample course
is interpolateBearing of the two; when exactly one is known it is that
known course (not the geometric fallback); only when neither is known is
the geometric bearing of the bracketing coordinates used; and for a
length-1 track with unknown course the sample course is 0, because the
geometric fallback degenerates to bearingDegrees p p = 0. -/
theorem animatedCourse_selection_amended :
    (∀ (a b t fb : ℝ), courseSelect (some a) (some b) t fb = interpolateBearing a b t) ∧
    (∀ (a t fb : ℝ), courseSelect (some a) none t fb = a) ∧
    (∀ (b t fb : ℝ), courseSelect none (some b) t fb = b) ∧
    (∀ (t fb : ℝ), courseSelect none none t fb = fb) ∧
    (∀ p : GeoPoint, bearingDegrees p p = 0) ∧
    (∀ (p : GeoPoint) (sp pos : ℝ), 0 ≤ pos →
      animatedCourse [⟨p, none, sp⟩] pos = some 0) := by
  refine ⟨fun a b t fb => rfl, fun a t fb => rfl, fun b t fb => rfl,
    fun t fb => rfl, bearingDegrees_self, fun p sp pos hpos => ?_⟩
  unfold animatedCourse
  simp [courseSelect, bearingDegrees_self]

/-- Closed witness for the amended C4 theorem at a concrete input. -/
theorem animatedCourse_selection_amended_witness :
    (0:ℝ) ≤ 0 ∧
    animatedCourse [⟨((0:ℝ), (0:ℝ)), none, 0⟩] 0 = some 0 :=
  ⟨le_refl 0,
    animatedCourse_selection_amended.2.2.2.2.2 ((0:ℝ), (0:ℝ)) 0 0 (le_refl 0)⟩

/-- Playback engine state of history.tsx: the playhead value
(playbackPosition / playbackPositionRef) and the isPlaying flag. -/
structure PlayState where
  position : ℚ
  playing : Bool
deriving DecidableEq

/-- Embedding of one animation-frame tick of history.tsx for a track of
length n at rate speed: the effect body returns immediately unless
isPlaying and the track is non-empty; otherwise it advances the playhead
by deltaSeconds * basePointsPerSecond * playbackSpeed with
basePointsPerSecond = 2, clamping at n - 1 and clearing isPlaying when the
advanced value reaches or passes n - 1. -/
def tick (n : ℕ) (speed dl : ℚ) (s : PlayState) : PlayState :=
  if s.playing = false ∨ n = 0 then s
  else
    let increment := dl * 2 * speed
    let next := s.position + increment
    if (n : ℚ) - 1 ≤ next then ⟨(n : ℚ) - 1, false⟩ else ⟨next, true⟩

/-- Embedding of the play/pause button onPress of history.tsx: disabled
for an empty track; otherwise it first resets the playhead to 0 when it is
at or past the final index, then toggles isPlaying. -/
def play (n : ℕ) (s : PlayState) : PlayState :=
  if n = 0 then s
  else ⟨if (n : ℚ) - 1 ≤ s.position then 0 else s.position, !s.playing⟩

/-- Folding a sequence of frame deltas through tick, with no intervening
scrub. -/
def runTicks (n : ℕ) (speed : ℚ) (ds : List ℚ) (s : PlayState) : PlayState :=
  ds.foldl (fun st d => tick n speed d st) s

theorem tick_of_not_playing (n : ℕ) (speed dl : ℚ) (s : PlayState)
    (h : s.playing = false) : tick n speed dl s = s := by
  unfold tick
  rw [if_pos (Or.inl h)]

theorem tick_iterate_formula (n : ℕ) (speed dl : ℚ) (hn : 2 ≤ n)
    (hdl : 0 < dl) (hsp : 0 < speed) (k : ℕ) :
    (tick n speed dl)^[k] ⟨0, true⟩ =
      if (n : ℚ) - 1 ≤ (k : ℚ) * (dl * 2 * speed) then ⟨(n : ℚ) - 1, false⟩
      else ⟨(k : ℚ) * (dl * 2 * speed), true⟩ := by
  have hn2 : (2:ℚ) ≤ (n : ℚ) := by exact_mod_cast hn
  have hinc : 0 < dl * 2 * speed := by positivity
  induction k with
  | zero =>
    rw [if_neg (by push_cast; linarith)]
    simp
  | succ k ih =>
    rw [Function.iterate_succ_apply', ih]
    by_cases hc : (n : ℚ) - 1 ≤ (k : ℚ) * (dl * 2 * speed)
    · rw [if_pos hc, tick_of_not_playing n speed dl _ rfl,
        if_pos (by push_cast; nlinarith)]
    · rw [if_neg hc]
      have hg : ¬ ((⟨(k : ℚ) * (dl * 2 * speed), true⟩ : PlayState).playing = false ∨ n = 0) := by
        push_neg
        exact ⟨by simp, by omega⟩
      unfold tick
      rw [if_neg hg]
      simp only
      by_cases hc2 : (n : ℚ) - 1 ≤ (k : ℚ) * (dl * 2 * speed) + dl * 2 * speed
      · rw [if_pos hc2, if_pos (by push_cast; linarith)]
      · rw [if_neg hc2, if_neg (by push_cast; linarith)]
        have : ((k : ℚ) + 1) * (dl * 2 * speed) =
            (k : ℚ) * (dl * 2 * speed) + dl * 2 * speed := by ring
        push_cast
        rw [this]

/-- C2: for a track of length at least 2 and positive frame deltas and
rate, (i) once enough ticks have elapsed to cover the n - 1 index range,
the iterated engine state is exactly position n - 1 with isPlaying false
(so reaching the final index and transitioning to Idle happen in the same
tick, and the state stays there under further ticks); (ii) a tick in the
Idle state changes nothing; (iii) pressing play while Idle at the final
index resets the playhead to 0 and enters Running. -/
theorem playback_end_of_track (n : ℕ) (speed dl : ℚ) (hn : 2 ≤ n)
    (hdl : 0 < dl) (hsp : 0 < speed) :
    (∀ k : ℕ, (n : ℚ) - 1 ≤ (k : ℚ) * (dl * 2 * speed) →
      (tick n speed dl)^[k] ⟨0, true⟩ = ⟨(n : ℚ) - 1, false⟩) ∧
    (∀ s : PlayState, s.playing = false → tick n speed dl s = s) ∧
    (∀ s : PlayState, s.playing = false → s.position = (n : ℚ) - 1 →
      play n s = ⟨0, true⟩) := by
  refine ⟨fun k hk => ?_, fun s hs => tick_of_not_playing n speed dl s hs,
    fun s hs hpos => ?_⟩
  · rw [tick_iterate_formula n speed dl hn hdl hsp k, if_pos hk]
  · unfold play
    rw [if_neg (by omega)]
    rw [hs, hpos, if_pos (le_refl _)]
    rfl

/-- Closed witness for C2 at a concrete track and frame delta. -/
theorem playback_end_of_track_witness :
    2 ≤ 2 ∧ (0:ℚ) < 1 ∧
    (tick 2 1 1)^[1] ⟨0, true⟩ = ⟨(2 : ℚ) - 1, false⟩ :=
  ⟨le_refl 2, by norm_num,
    (playback_end_of_track 2 1 1 (le_refl 2) (by norm_num) (by norm_num)).1 1
      (by push_cast; norm_num)⟩

theorem tick_mono_clamped (n : ℕ) (speed dl : ℚ) (hn : 1 ≤ n)
    (hsp : 0 ≤ speed) (hdl : 0 ≤ dl) (s : PlayState) (h0 : 0 ≤ s.position)
    (h1 : s.position ≤ (n : ℚ) - 1) :
    s.position ≤ (tick n speed dl s).position ∧
    0 ≤ (tick n speed dl s).position ∧
    (tick n speed dl s).position ≤ (n : ℚ) - 1 := by
  have hn1 : (1:ℚ) ≤ (n : ℚ) := by exact_mod_cast hn
  have hinc : 0 ≤ dl * 2 * speed := by positivity
  unfold tick
  by_cases hg : s.playing = false ∨ n = 0
  · rw [if_pos hg]
    exact ⟨le_refl _, h0, h1⟩
  · rw [if_neg hg]
    simp only
    by_cases hc : (n : ℚ) - 1 ≤ s.position + dl * 2 * speed
    · rw [if_pos hc]
      refine ⟨h1, ?_, le_refl _⟩
      show (0:ℚ) ≤ (n : ℚ) - 1
      linarith
    · rw [if_neg hc]
      refine ⟨?_, ?_, ?_⟩
      · show s.position ≤ s.position + dl * 2 * speed
        linarith
      · show (0:ℚ) ≤ s.position + dl * 2 * speed
        linarith
      · show s.position + dl * 2 * speed ≤ (n : ℚ) - 1
        have := not_le.1 hc
        linarith

/-- C3: for a track of length at least 1, a rate in [1/2, 3], and any
sequence of positive frame deltas with no intervening scrub, the playhead
never decreases and always stays inside [0, n - 1]. -/
theorem playhead_monotone_clamped (n : ℕ) (speed : ℚ) (ds : List ℚ)
    (hn : 1 ≤ n) (hsp1 : 1/2 ≤ speed) (hsp2 : speed ≤ 3)
    (hds : ∀ d ∈ ds, 0 < d) (s : PlayState) (h0 : 0 ≤ s.position)
    (h1 : s.position ≤ (n : ℚ) - 1) :
    s.position ≤ (runTicks n speed ds s).position ∧
    0 ≤ (runTicks n speed ds s).position ∧
    (runTicks n speed ds s).position ≤ (n : ℚ) - 1 := by
  induction ds generalizing s with
  | nil =>
    exact ⟨le_refl _, h0, h1⟩
  | cons d rest ih =>
    have hd : 0 < d := hds d (by simp)
    have hstep := tick_mono_clamped n speed d hn (by linarith) hd.le s h0 h1
    have hrest := ih (fun x hx => hds x (by simp [hx])) (tick n speed d s)
      hstep.2.1 hstep.2.2
    rw [show runTicks n speed (d :: rest) s =
      runTicks n speed rest (tick n speed d s) from rfl]
    exact ⟨le_trans hstep.1 hrest.1, hrest.2.1, hrest.2.2⟩

/-- Closed witness for C3 at a concrete track, rate and delta sequence. -/
theorem playhead_monotone_clamped_witness :
    ((1:ℚ)/2 ≤ 1 ∧ (1:ℚ) ≤ 3 ∧ (∀ d ∈ ([1] : List ℚ), 0 < d)) ∧
    ((⟨0, true⟩ : PlayState).position ≤ (runTicks 2 1 [1] ⟨0, true⟩).position ∧
      0 ≤ (runTicks 2 1 [1] ⟨0, true⟩).position ∧
      (runTicks 2 1 [1] ⟨0, true⟩).position ≤ (2 : ℚ) - 1) :=
  ⟨⟨by norm_num, by norm_num, by intro d hd; rw [List.mem_singleton] at hd; rw [hd]; norm_num⟩,
    playhead_monotone_clamped 2 1 [1] (by norm_num) (by norm_num) (by norm_num)
      (by intro d hd; rw [List.mem_singleton] at hd; rw [hd]; norm_num)
      ⟨0, true⟩ (le_refl 0) (by norm_num)⟩

/-- C5 counterexample: for a track of length 1, pressing play from the
Idle state at position 0 is not a no-op: it toggles isPlaying to true
(position is reset to 0, but the playing flag changes), refuting the
claim that the playback state is left unchanged. -/
theorem play_length_one_not_noop :
    play 1 ⟨0, false⟩ = ⟨0, true⟩ ∧
    (play 1 ⟨0, false⟩).playing ≠ (⟨0, false⟩ : PlayState).playing := by
  constructor
  · unfold play
    norm_num
  · unfold play
    norm_num

/-- C5 amended: for a track of length 0 the play control is disabled, so
play is a no-op; for a track of length 1 play keeps the playhead pinned
at 0 but toggles isPlaying, and the very next tick returns the engine to
Idle at position 0, so no movement ever occurs. -/
theorem play_degenerate_amended :
    (∀ s : PlayState, play 0 s = s) ∧
    (∀ s : PlayState, 0 ≤ s.position →
      (play 1 s).position = 0 ∧ (play 1 s).playing = !s.playing) ∧
    (∀ speed dl : ℚ, 0 < speed → 0 < dl →
      tick 1 speed dl ⟨0, true⟩ = ⟨0, false⟩) := by
  refine ⟨fun s => by unfold play; rw [if_pos rfl],
    fun s hpos => ?_, fun speed dl hsp hdl => ?_⟩
  · unfold play
    rw [if_neg (by omega)]
    rw [if_pos (by push_cast; linarith)]
    exact ⟨rfl, rfl⟩
  · unfold tick
    rw [if_neg (by simp)]
    simp only
    rw [if_pos (by push_cast; nlinarith)]
    norm_num

/-- Closed witness for the amended C5 theorem at concrete inputs. -/
theorem play_degenerate_amended_witness :
    (0:ℚ) ≤ 0 ∧ (0:ℚ) < 1 ∧
    (play 1 ⟨0, false⟩).position = 0 ∧
    tick 1 1 1 ⟨0, true⟩ = ⟨0, false⟩ :=
  ⟨le_refl 0, by norm_num,
    (play_degenerate_amended.2.1 ⟨0, false⟩ (le_refl 0)).1,
    play_degenerate_amended.2.2 1 1 (by norm_num) (by norm_num)⟩

end History
